/-
Verification of the go-sol-sign base58 codec and its callers.

The program is a Go command-line tool; the code verified here is its
self-contained base58 codec (`base58Decode`, `base58Encode` in main.go),
the test-helper encoder (`base58Encode` in the test file), the private-key
loader `loadKeypairFromString`, and the output-format switch of `main`.

Embedding conventions:
  * Go `[]byte` values are `List Nat`; "b is a byte sequence" is the
    hypothesis `∀ x ∈ b, x < 256`.
  * Go `string` values are Lean `String`; the codec works on `String.data`
    (the list of characters), matching Go's byte-wise iteration since the
    alphabet and all inputs the codec accepts are ASCII.
  * Go `(value, error)` returns become `Except`; the decoder's only error
    carries the offending character, mirroring
    `fmt.Errorf("invalid character '%c' in base58 string", char)`.
  * Go `int` arithmetic in the codec never exceeds 57*256+255, so it is
    embedded as `Nat`; the `byte(...)` casts in the source are kept as
    explicit `% 256` (resp. already-reduced `% 58` / `% 256` expressions).
  * External capabilities (Ed25519 key derivation, base64 and hex
    encoders from the Go standard library) are parameters of the
    embedded callers: the claims about those callers hold for every
    instantiation of the parameter.
-/
import Mathlib

namespace SolSign

/-- The base58 alphabet constant, shared by encoder and decoder:
`const alphabet = "123456789ABCDEFGHJKLMNPQRSTUVWXYZabcdefghijkmnopqrstuvwxyz"`. -/
def b58Alphabet : List Char :=
  "123456789ABCDEFGHJKLMNPQRSTUVWXYZabcdefghijkmnopqrstuvwxyz".data

/-- `alphabet[d]` : the character of digit value `d` (the final lookup
`alphabet[result[i]]` in the encoder).  Out-of-range indices yield `'?'`;
the safety claim proves the index is always in range. -/
def alphaChar (d : Nat) : Char := b58Alphabet.getD d '?'

/-- Digit value of a character: position in the alphabet.  Total version
of the Go decode map (meaningful only for members of the alphabet). -/
def charIndex (c : Char) : Nat := b58Alphabet.indexOf c

/-- The decode-map lookup `value, ok := decode[char]`: `some` of the digit
value for alphabet members, `none` otherwise. -/
def decodeChar (c : Char) : Option Nat :=
  if c ∈ b58Alphabet then some (charIndex c) else none

/-- Fuel-indexed form of the carry-flush loop; structural recursion on the
fuel keeps the definition computable by the kernel.  With `carry ≤ fuel`
and `2 ≤ base` the fuel never runs out (`carry / base < carry`), so
`toDigits` below is exactly the loop
`for carry > 0 { result = append(result, byte(carry % base)); carry /= base }`. -/
def toDigitsF (base : Nat) : Nat → Nat → List Nat
  | _, 0 => []
  | 0, _ + 1 => []
  | fuel + 1, c + 1 => ((c + 1) % base) :: toDigitsF base fuel ((c + 1) / base)

/-- Little-endian digits of `carry` in base `base` (base ≥ 2): the
carry-flush `while` loop shared by encoder and decoder. -/
def toDigits (base : Nat) (carry : Nat) : List Nat := toDigitsF base carry carry

/-- One multiply-accumulate pass of the codec: walk the little-endian
digit buffer `ds`, at each slot doing `carry += d * mult;
slot = carry % base; carry /= base`, then flush the remaining carry
(`toDigits`).  The decoder uses `mult = 58, base = 256`; the encoder
uses `mult = 256, base = 58`. -/
def stepDigits (mult base : Nat) : List Nat → Nat → List Nat
  | [], carry => toDigits base carry
  | d :: ds, carry =>
    ((carry + d * mult) % base) :: stepDigits mult base ds ((carry + d * mult) / base)

/-- The decoder's main loop over the characters after the leading `'1'`s:
look each character up in the decode map (failing on an unknown
character) and fold it into the little-endian base-256 buffer. -/
def decodeLoop : List Char → List Nat → Except Char (List Nat)
  | [], acc => .ok acc
  | c :: cs, acc =>
    match decodeChar c with
    | none => .error c
    | some v => decodeLoop cs (stepDigits 58 256 acc v)

/-- Count of leading `'1'` characters (`leadingOnes` in the decoder). -/
def leadingOneCount (s : List Char) : Nat := (s.takeWhile (fun c => c = '1')).length

/-- `base58Decode` from main.go, on the character list of the input. -/
def base58DecodeL (s : List Char) : Except Char (List Nat) :=
  if s = [] then .ok []
  else
    match decodeLoop (s.drop (leadingOneCount s)) [] with
    | .error c => .error c
    | .ok result => .ok ((result ++ List.replicate (leadingOneCount s) 0).reverse)

/-- `base58Decode(s string) ([]byte, error)` from main.go: empty string
decodes to the empty byte slice; leading `'1'` characters are counted and
re-added as zero bytes; the rest is accumulated little-endian by
multiply-by-58 / carry-in-base-256; the buffer is reversed at the end. -/
def base58Decode (s : String) : Except Char (List Nat) := base58DecodeL s.data

/-- Leading-zero-byte count of the encoder input. -/
def leadingZeroCount (input : List Nat) : Nat :=
  (input.takeWhile (fun x => x = 0)).length

/-- The encoder's little-endian base-58 digit buffer after folding in all
bytes past the leading zeros (`carry := int(input[i])`, multiply buffer
by 256, propagate carry in base 58). -/
def encodeDigits (input : List Nat) : List Nat :=
  (input.drop (leadingZeroCount input)).foldl (fun acc v => stepDigits 256 58 acc v) []

/-- `base58Encode` from main.go, producing the character list: `'1'` per
leading zero byte, then the digit buffer in reverse order mapped through
the alphabet. -/
def base58EncodeL (input : List Nat) : List Char :=
  if input = [] then []
  else
    List.replicate (leadingZeroCount input) '1'
      ++ (encodeDigits input).reverse.map alphaChar

/-- `base58Encode(input []byte) string` from main.go. -/
def base58Encode (input : List Nat) : String := ⟨base58EncodeL input⟩

/-- Big-endian value of a digit list in base `base`: the number a Go byte
slice (most-significant byte first) or digit-value list denotes. -/
def beVal (base : Nat) (l : List Nat) : Nat := l.foldl (fun a d => a * base + d) 0

-- The test file's helper encoder (`base58Encode` in main_test.go):
-- repeated long division of the byte buffer by 58, prepending the
-- remainder's alphabet character each round.

/-- One pass of the helper's inner division loop
(`temp := remainder*256 + int(input[i]); input[i] = byte(temp / 58);
remainder = temp % 58`): long division of a big-endian byte buffer by 58,
returning the quotient buffer (same length) and the final remainder.  The
Go `byte(...)` cast is the explicit `% 256`. -/
def divmod58 : List Nat → Nat → (List Nat × Nat)
  | [], rem => ([], rem)
  | d :: ds, rem =>
    ((((rem * 256 + d) / 58) % 256) :: (divmod58 ds ((rem * 256 + d) % 58)).1,
      (divmod58 ds ((rem * 256 + d) % 58)).2)

/-- Fuel-indexed form of the helper's outer loop
(`for len(input) > 0 { strip leading zeros; if empty break; divide by 58;
prepend remainder digit }`).  Fuel at least the value of the buffer never
runs out, because each division strictly shrinks that value; structural
recursion on the fuel keeps the definition kernel-computable. -/
def helperLoopF : Nat → List Nat → List Char
  | 0, _ => []
  | fuel + 1, input =>
    if (input.dropWhile (fun x => x = 0)) = [] then []
    else
      helperLoopF fuel (divmod58 (input.dropWhile (fun x => x = 0)) 0).1
        ++ [alphaChar (divmod58 (input.dropWhile (fun x => x = 0)) 0).2]

/-- The helper's outer division loop, producing the digit characters in
most-significant-first order. -/
def helperLoop (input : List Nat) : List Char := helperLoopF (beVal 256 input) input

/-- `base58Encode(data []byte) string` from the test file: empty input
gives `""`; otherwise divide a copy of the input by 58 until exhausted,
prepending remainder characters, then prepend one `'1'` per leading zero
byte. -/
def base58EncodeHelper (data : List Nat) : String :=
  if data = [] then ""
  else ⟨List.replicate (leadingZeroCount data) '1' ++ helperLoop data⟩

-- The private-key loader and the output-format switch of main.go.

/-- The two error paths of `loadKeypairFromString`, mirroring its
`fmt.Errorf` calls: a wrapped base58 decode failure (carrying the
offending character) or a wrong decoded length (carrying the length). -/
inductive KeypairError
  | invalidBase58 (c : Char)
  | invalidLength (got : Nat)
deriving DecidableEq

/-- Go's `strings.TrimSpace` on the whitespace set of `unicode.IsSpace`'s
Latin-1 fast path (space, tab, newline, vertical tab, form feed,
carriage return, NEL, NBSP); exact for the ASCII inputs this program
handles. -/
def goIsSpace (c : Char) : Bool :=
  c = ' ' ∨ c = '\t' ∨ c = '\n' ∨ c = Char.ofNat 11 ∨ c = Char.ofNat 12 ∨ c = '\r'
    ∨ c = Char.ofNat 0x85 ∨ c = Char.ofNat 0xA0

/-- `strings.TrimSpace(privateKeyStr)`: drop whitespace from both ends. -/
def goTrimSpace (s : String) : String :=
  ⟨((s.data.dropWhile goIsSpace).reverse.dropWhile goIsSpace).reverse⟩

/-- `loadKeypairFromString` from main.go: trim, base58-decode, then
switch on the decoded length (32 = seed, 64 = seed plus embedded public
key, anything else = error).  The Ed25519 derivation
`ed25519.NewKeyFromSeed` is an external capability and is passed as the
parameter `newKeyFromSeed`; theorems about this function quantify over
every instantiation of that parameter. -/
def loadKeypairFromString (newKeyFromSeed : List Nat → List Nat)
    (privateKeyStr : String) : Except KeypairError (List Nat) :=
  match base58Decode (goTrimSpace privateKeyStr) with
  | .error c => .error (KeypairError.invalidBase58 c)
  | .ok decoded =>
    if decoded.length = 32 then .ok (newKeyFromSeed decoded)
    else if decoded.length = 64 then .ok (newKeyFromSeed (decoded.take 32))
    else .error (KeypairError.invalidLength decoded.length)

/-- The output stage of `main` (the `switch *outputFormat`): base64 and
hex rendering come from the Go standard library and are passed as the
parameters `base64Enc` and `hexEnc`; base58 uses the repository's own
encoder; any other format hits `log.Fatalf("Unknown format: ...")`,
modelled as the error case. -/
def formatSignature (base64Enc hexEnc : List Nat → String) (outputFormat : String)
    (signature : List Nat) : Except String String :=
  if outputFormat = "base64" then .ok (base64Enc signature)
  else if outputFormat = "hex" then .ok (hexEnc signature)
  else if outputFormat = "base58" then .ok (base58Encode signature)
  else .error ("Unknown format: " ++ outputFormat ++ ". Supported formats: base58, base64, hex")

theorem beVal_foldl (base : Nat) (l : List Nat) (a : Nat) :
    l.foldl (fun x d => x * base + d) a
      = a * base ^ l.length + Nat.ofDigits base l.reverse := by
  induction l generalizing a with
  | nil => simp [Nat.ofDigits]
  | cons d ds ih =>
    simp only [List.foldl_cons, List.reverse_cons, ih, Nat.ofDigits_append,
      List.length_reverse, List.length_cons, Nat.ofDigits_singleton]
    ring

theorem beVal_eq_ofDigits (base : Nat) (l : List Nat) :
    beVal base l = Nat.ofDigits base l.reverse := by
  simpa using beVal_foldl base l 0

theorem beVal_reverse_digits (base n : Nat) :
    beVal base (Nat.digits base n).reverse = n := by
  rw [beVal_eq_ofDigits, List.reverse_reverse, Nat.ofDigits_digits]

theorem beVal_cons (base d : Nat) (ds : List Nat) :
    beVal base (d :: ds) = d * base ^ ds.length + beVal base ds := by
  simp only [beVal, List.foldl_cons]
  rw [beVal_foldl, beVal_foldl]
  simp

theorem beVal_pos (base : Nat) (hb : 0 < base) (l : List Nat) (h : l ≠ [])
    (hh : l.head h ≠ 0) : 0 < beVal base l := by
  match l with
  | d :: ds =>
    have hd : 0 < d := Nat.pos_of_ne_zero (by simpa using hh)
    have hp : 0 < base ^ ds.length := Nat.pos_pow_of_pos _ hb
    have hmul : 0 < d * base ^ ds.length := Nat.mul_pos hd hp
    rw [beVal_cons]
    omega

/-- Uniqueness of the canonical big-endian representation: a digit list
with in-range digits and nonzero head is recovered exactly from its value. -/
theorem digits_beVal_reverse (base : Nat) (hb : 1 < base) (l : List Nat)
    (hlt : ∀ x ∈ l, x < base) (hhead : ∀ h : l ≠ [], l.head h ≠ 0) :
    (Nat.digits base (beVal base l)).reverse = l := by
  have hrev : ∀ x ∈ l.reverse, x < base := fun x hx => hlt x (List.mem_reverse.mp hx)
  have hlast : ∀ h : l.reverse ≠ [], l.reverse.getLast h ≠ 0 := by
    intro h
    rw [List.getLast_reverse]
    exact hhead _
  have := Nat.digits_ofDigits base hb l.reverse hrev hlast
  rw [beVal_eq_ofDigits, this, List.reverse_reverse]

theorem toDigitsF_eq_digits (base : Nat) (hb : 2 ≤ base) :
    ∀ fuel c, c ≤ fuel → toDigitsF base fuel c = Nat.digits base c := by
  intro fuel
  induction fuel with
  | zero =>
    intro c hc
    have : c = 0 := Nat.le_zero.mp hc
    subst this
    simp [toDigitsF]
  | succ n ih =>
    intro c hc
    match c with
    | 0 => simp [toDigitsF]
    | c + 1 =>
      have hdiv : (c + 1) / base < c + 1 := Nat.div_lt_self (Nat.succ_pos c) (by omega)
      rw [toDigitsF, ih ((c + 1) / base) (by omega),
        Nat.digits_def' (by omega : 1 < base) (Nat.succ_pos c)]

theorem toDigits_eq_digits (base : Nat) (hb : 2 ≤ base) (c : Nat) :
    toDigits base c = Nat.digits base c :=
  toDigitsF_eq_digits base hb c c le_rfl

theorem ofDigits_stepDigits (mult base : Nat) (hb : 2 ≤ base) (ds : List Nat) :
    ∀ c, Nat.ofDigits base (stepDigits mult base ds c)
      = c + mult * Nat.ofDigits base ds := by
  induction ds with
  | nil =>
    intro c
    simp [stepDigits, toDigits_eq_digits base hb, Nat.ofDigits_digits, Nat.ofDigits]
  | cons d ds ih =>
    intro c
    have hmd : (c + d * mult) % base + base * ((c + d * mult) / base) = c + d * mult :=
      Nat.mod_add_div _ _
    simp only [stepDigits, Nat.ofDigits_cons, ih, Nat.cast_id]
    rw [Nat.mul_add, ← Nat.add_assoc, hmd]
    ring

theorem stepDigits_lt (mult base : Nat) (hb : 2 ≤ base) (ds : List Nat) :
    ∀ c, ∀ x ∈ stepDigits mult base ds c, x < base := by
  induction ds with
  | nil =>
    intro c x hx
    rw [stepDigits, toDigits_eq_digits base hb] at hx
    exact Nat.digits_lt_base (by omega) hx
  | cons d ds ih =>
    intro c x hx
    rcases List.mem_cons.mp hx with h | h
    · subst h
      exact Nat.mod_lt _ (by omega)
    · exact ih _ x h

theorem stepDigits_eq_nil_iff (mult base : Nat) (hb : 2 ≤ base) (ds : List Nat) (c : Nat) :
    stepDigits mult base ds c = [] ↔ ds = [] ∧ c = 0 := by
  match ds with
  | [] =>
    show toDigits base c = [] ↔ _
    rw [toDigits_eq_digits base hb]
    simp [Nat.digits_eq_nil_iff_eq_zero]
  | d :: ds => simp [stepDigits]

theorem stepDigits_getLast_ne_zero (mult base : Nat) (hb : 2 ≤ base) (hm : 1 ≤ mult)
    (ds : List Nat) :
    ∀ c (_ : ∀ h : ds ≠ [], ds.getLast h ≠ 0) (h : stepDigits mult base ds c ≠ []),
      (stepDigits mult base ds c).getLast h ≠ 0 := by
  induction ds with
  | nil =>
    intro c _ h
    simp only [stepDigits, toDigits_eq_digits base hb] at h ⊢
    have hc : c ≠ 0 := by
      intro e
      subst e
      simp at h
    exact Nat.getLast_digit_ne_zero base hc
  | cons d ds ih =>
    intro c hcan h
    by_cases hrest : stepDigits mult base ds ((c + d * mult) / base) = []
    · obtain ⟨hds, hq⟩ := (stepDigits_eq_nil_iff mult base hb _ _).mp hrest
      subst hds
      have hd : d ≠ 0 := by simpa using hcan (by simp)
      have hlt : c + d * mult < base := (Nat.div_eq_zero_iff (by omega : 0 < base)).mp hq
      have hpos : 0 < d * mult := Nat.mul_pos (Nat.pos_of_ne_zero hd) hm
      have hform : stepDigits mult base [d] c = [(c + d * mult) % base] := by
        simp only [stepDigits] at hrest ⊢
        rw [hrest]
      have hx : (c + d * mult) % base = c + d * mult := Nat.mod_eq_of_lt hlt
      simp only [hform, List.getLast_singleton, hx]
      omega
    · show (stepDigits mult base (d :: ds) c).getLast h ≠ 0
      simp only [stepDigits] at h ⊢
      rw [List.getLast_cons hrest]
      exact ih _ (fun h' => by
        have := hcan (by simp)
        rwa [List.getLast_cons h'] at this) hrest

theorem ofDigits_foldl_stepDigits (mult base : Nat) (hb : 2 ≤ base) (l : List Nat) :
    ∀ acc, Nat.ofDigits base (l.foldl (fun a v => stepDigits mult base a v) acc)
      = l.foldl (fun a v => a * mult + v) (Nat.ofDigits base acc) := by
  induction l with
  | nil => intro acc; rfl
  | cons v vs ih =>
    intro acc
    simp only [List.foldl_cons]
    rw [ih, ofDigits_stepDigits mult base hb]
    congr 1
    ring

theorem foldl_stepDigits_lt (mult base : Nat) (hb : 2 ≤ base) (l : List Nat) :
    ∀ acc, (∀ x ∈ acc, x < base) →
      ∀ x ∈ l.foldl (fun a v => stepDigits mult base a v) acc, x < base := by
  induction l with
  | nil => intro acc hacc; exact hacc
  | cons v vs ih =>
    intro acc _
    simp only [List.foldl_cons]
    exact ih _ (stepDigits_lt mult base hb acc v)

theorem foldl_stepDigits_getLast_ne_zero (mult base : Nat) (hb : 2 ≤ base) (hm : 1 ≤ mult)
    (l : List Nat) :
    ∀ acc, (∀ h : acc ≠ [], acc.getLast h ≠ 0) →
      ∀ h : l.foldl (fun a v => stepDigits mult base a v) acc ≠ [],
        (l.foldl (fun a v => stepDigits mult base a v) acc).getLast h ≠ 0 := by
  induction l with
  | nil => intro acc hacc; exact hacc
  | cons v vs ih =>
    intro acc hacc
    simp only [List.foldl_cons]
    exact ih _ (stepDigits_getLast_ne_zero mult base hb hm acc v hacc)

/-- Dropping exactly the `takeWhile` prefix is the same as `dropWhile`:
relates the Go codec's index-based loops (`for i := leadingOnes; ...`) to
`dropWhile`. -/
theorem drop_length_takeWhile {α : Type} (p : α → Bool) (l : List α) :
    l.drop (l.takeWhile p).length = l.dropWhile p := by
  induction l with
  | nil => rfl
  | cons a t ih =>
    by_cases h : p a
    · simp [List.takeWhile_cons, List.dropWhile_cons, h, ih]
    · simp [List.takeWhile_cons, List.dropWhile_cons, h]

/-- The `takeWhile (· = a)` prefix is literally a block of `a`s. -/
theorem takeWhile_eq_replicate {α : Type} [DecidableEq α] (a : α) (l : List α) :
    l.takeWhile (fun x => x = a) = List.replicate (l.takeWhile (fun x => x = a)).length a := by
  rw [List.eq_replicate_iff]
  exact ⟨rfl, fun b hb => by simpa using List.mem_takeWhile_imp hb⟩

/-- Counting the leading block of `a`s in `replicate n a ++ t` gives back
`n` whenever `t` does not start with another `a`. -/
theorem takeWhile_replicate_append {α : Type} [DecidableEq α] (a : α) (n : Nat) (t : List α)
    (ht : ∀ h : t ≠ [], t.head h ≠ a) :
    ((List.replicate n a ++ t).takeWhile (fun x => x = a)).length = n := by
  induction n with
  | zero =>
    simp only [List.replicate, List.nil_append]
    match t with
    | [] => rfl
    | b :: t' =>
      have hb : b ≠ a := by simpa using ht (by simp)
      simp [List.takeWhile_cons, hb]
  | succ m ih =>
    have hc : (List.replicate (m + 1) a ++ t) = a :: (List.replicate m a ++ t) := by
      simp [List.replicate_succ]
    rw [hc, List.takeWhile_cons, if_pos (by simp)]
    simp only [List.length_cons, ih]

-- Concrete facts about the 58-character alphabet, settled by evaluation.

theorem alphabet_length : b58Alphabet.length = 58 := by decide

theorem alphaChar_mem : ∀ d < 58, alphaChar d ∈ b58Alphabet := by decide

theorem alphaChar_ne_one : ∀ d < 58, d ≠ 0 → alphaChar d ≠ '1' := by decide

theorem charIndex_alphaChar : ∀ d < 58, charIndex (alphaChar d) = d := by decide

theorem alphaChar_charIndex : ∀ c ∈ b58Alphabet, alphaChar (charIndex c) = c := by decide

theorem charIndex_lt : ∀ c ∈ b58Alphabet, charIndex c < 58 := by decide

theorem charIndex_ne_zero : ∀ c ∈ b58Alphabet, c ≠ '1' → charIndex c ≠ 0 := by decide

theorem one_mem_alphabet : '1' ∈ b58Alphabet := by decide

theorem decodeChar_mem (c : Char) (h : c ∈ b58Alphabet) : decodeChar c = some (charIndex c) := by
  simp [decodeChar, h]

theorem decodeChar_not_mem (c : Char) (h : c ∉ b58Alphabet) : decodeChar c = none := by
  simp [decodeChar, h]

-- Characterization of the encoder: the digit buffer is exactly the
-- canonical base-58 digit list of the value of the input past its
-- leading zero bytes.

theorem encodeDigits_eq_digits (input : List Nat) :
    encodeDigits input
      = Nat.digits 58 (beVal 256 (input.drop (leadingZeroCount input))) := by
  have hval : Nat.ofDigits 58 (encodeDigits input)
      = beVal 256 (input.drop (leadingZeroCount input)) := by
    rw [encodeDigits, ofDigits_foldl_stepDigits 256 58 (by omega)]
    rfl
  have hlt : ∀ x ∈ encodeDigits input, x < 58 :=
    foldl_stepDigits_lt 256 58 (by omega) _ [] (by simp)
  have hlast : ∀ h : encodeDigits input ≠ [], (encodeDigits input).getLast h ≠ 0 :=
    foldl_stepDigits_getLast_ne_zero 256 58 (by omega) (by omega) _ [] (by simp)
  have := Nat.digits_ofDigits 58 (by omega) (encodeDigits input) hlt hlast
  rw [hval] at this
  exact this.symm

theorem base58EncodeL_eq (input : List Nat) :
    base58EncodeL input
      = List.replicate (leadingZeroCount input) '1'
          ++ ((Nat.digits 58 (beVal 256 (input.drop (leadingZeroCount input)))).reverse.map
              alphaChar) := by
  by_cases h : input = []
  · subst h
    show ([] : List Char) = _
    have hz : beVal 256 ([] : List Nat) = 0 := rfl
    simp [leadingZeroCount, hz]
  · rw [base58EncodeL, if_neg h, encodeDigits_eq_digits]

-- Characterization of the decoder loop and of the full decoder.

theorem decodeLoop_ok (cs : List Char) :
    ∀ acc, (∀ c ∈ cs, c ∈ b58Alphabet) →
      decodeLoop cs acc
        = .ok ((cs.map charIndex).foldl (fun a v => stepDigits 58 256 a v) acc) := by
  induction cs with
  | nil => intro acc _; rfl
  | cons c cs ih =>
    intro acc hv
    have hc : c ∈ b58Alphabet := hv c (by simp)
    simp only [decodeLoop, decodeChar_mem c hc, List.map_cons, List.foldl_cons]
    exact ih _ (fun x hx => hv x (by simp [hx]))

theorem decodeLoop_ok_valid (cs : List Char) :
    ∀ acc r, decodeLoop cs acc = .ok r → ∀ c ∈ cs, c ∈ b58Alphabet := by
  induction cs with
  | nil => intro acc r _ c hc; cases hc
  | cons c0 cs ih =>
    intro acc r hr c hc
    by_cases hmem : c0 ∈ b58Alphabet
    · rcases List.mem_cons.mp hc with rfl | h
      · exact hmem
      · simp only [decodeLoop, decodeChar_mem c0 hmem] at hr
        exact ih _ _ hr c h
    · simp only [decodeLoop, decodeChar_not_mem c0 hmem] at hr
      cases hr

theorem decodeLoop_error (cs : List Char) :
    ∀ acc e, decodeLoop cs acc = .error e → e ∈ cs ∧ e ∉ b58Alphabet := by
  induction cs with
  | nil =>
    intro acc e h
    cases h
  | cons c0 cs ih =>
    intro acc e h
    by_cases hmem : c0 ∈ b58Alphabet
    · simp only [decodeLoop, decodeChar_mem c0 hmem] at h
      obtain ⟨he, hn⟩ := ih _ _ h
      exact ⟨by simp [he], hn⟩
    · simp only [decodeLoop, decodeChar_not_mem c0 hmem] at h
      have : c0 = e := by
        cases h
        rfl
      subst this
      exact ⟨by simp, hmem⟩

/-- Master characterization of the decoder on alphabet-only inputs: the
result is the leading-one zeros followed by the canonical big-endian
base-256 bytes of the value of the remaining digits. -/
theorem base58DecodeL_valid (s : List Char) (hv : ∀ c ∈ s, c ∈ b58Alphabet) :
    base58DecodeL s
      = .ok (List.replicate (leadingOneCount s) 0
          ++ (Nat.digits 256
               (beVal 58 ((s.drop (leadingOneCount s)).map charIndex))).reverse) := by
  by_cases hs : s = []
  · subst hs
    have hz : beVal 58 ([] : List Nat) = 0 := rfl
    simp [base58DecodeL, leadingOneCount, hz]
  · have hdrop : ∀ c ∈ s.drop (leadingOneCount s), c ∈ b58Alphabet :=
      fun c hc => hv c (List.mem_of_mem_drop hc)
    simp only [base58DecodeL, if_neg hs, decodeLoop_ok _ [] hdrop]
    congr 1
    rw [List.reverse_append, List.reverse_replicate]
    congr 1
    have hfold := ofDigits_foldl_stepDigits 58 256 (by omega)
      ((s.drop (leadingOneCount s)).map charIndex) []
    have hval : Nat.ofDigits 256
        (((s.drop (leadingOneCount s)).map charIndex).foldl
          (fun a v => stepDigits 58 256 a v) [])
        = beVal 58 ((s.drop (leadingOneCount s)).map charIndex) := by
      rw [hfold]
      rfl
    have hlt := foldl_stepDigits_lt 58 256 (by omega)
      ((s.drop (leadingOneCount s)).map charIndex) [] (by simp)
    have hlast := foldl_stepDigits_getLast_ne_zero 58 256 (by omega) (by omega)
      ((s.drop (leadingOneCount s)).map charIndex) [] (by simp)
    have := Nat.digits_ofDigits 256 (by omega)
      (((s.drop (leadingOneCount s)).map charIndex).foldl
        (fun a v => stepDigits 58 256 a v) []) hlt hlast
    rw [hval] at this
    rw [this]

-- Decomposition of inputs around their leading zero bytes / `'1'`s.

theorem input_decomp (b : List Nat) :
    b = List.replicate (leadingZeroCount b) 0 ++ b.drop (leadingZeroCount b) := by
  conv_lhs => rw [← List.takeWhile_append_dropWhile (p := fun x => decide (x = 0)) (l := b)]
  rw [leadingZeroCount, drop_length_takeWhile]
  congr 1
  exact takeWhile_eq_replicate 0 b

theorem drop_head_ne_zero (b : List Nat) (h : b.drop (leadingZeroCount b) ≠ []) :
    (b.drop (leadingZeroCount b)).head h ≠ 0 := by
  revert h
  rw [leadingZeroCount, drop_length_takeWhile]
  intro h
  have := List.head_dropWhile_not (fun x => decide (x = 0)) b h
  simpa using this

theorem string_decomp (s : List Char) :
    s = List.replicate (leadingOneCount s) '1' ++ s.drop (leadingOneCount s) := by
  conv_lhs => rw [← List.takeWhile_append_dropWhile (p := fun c => decide (c = '1')) (l := s)]
  rw [leadingOneCount, drop_length_takeWhile]
  congr 1
  exact takeWhile_eq_replicate '1' s

theorem drop_head_ne_one (s : List Char) (h : s.drop (leadingOneCount s) ≠ []) :
    (s.drop (leadingOneCount s)).head h ≠ '1' := by
  revert h
  rw [leadingOneCount, drop_length_takeWhile]
  intro h
  have := List.head_dropWhile_not (fun c => decide (c = '1')) s h
  simpa using this

/-- Round trip at the character-list level: decoding an encoded byte
sequence gives back exactly the input bytes. -/
theorem decodeL_encodeL (b : List Nat) (hb : ∀ x ∈ b, x < 256) :
    base58DecodeL (base58EncodeL b) = .ok b := by
  have hEnc := base58EncodeL_eq b
  set z := leadingZeroCount b with hz
  set rest := b.drop z with hrestdef
  set N := beVal 256 rest with hN
  set T := (Nat.digits 58 N).reverse.map alphaChar with hT
  have hTmem : ∀ c ∈ T, c ∈ b58Alphabet := by
    intro c hc
    obtain ⟨d, hd, rfl⟩ := List.mem_map.mp hc
    exact alphaChar_mem d (Nat.digits_lt_base (by omega) (List.mem_reverse.mp hd))
  have hvalid : ∀ c ∈ base58EncodeL b, c ∈ b58Alphabet := by
    rw [hEnc]
    intro c hc
    rcases List.mem_append.mp hc with h | h
    · rw [List.eq_of_mem_replicate h]
      exact one_mem_alphabet
    · exact hTmem c h
  have hThead : ∀ h : T ≠ [], T.head h ≠ '1' := by
    intro h
    have hrne : (Nat.digits 58 N).reverse ≠ [] := by
      intro e
      rw [hT, e] at h
      exact h rfl
    have hdne : Nat.digits 58 N ≠ [] := by simpa using hrne
    have hNne : N ≠ 0 := fun e => hdne (by rw [e]; simp)
    show (List.map alphaChar (Nat.digits 58 N).reverse).head h ≠ '1'
    rw [List.head_map]
    have hhead : (Nat.digits 58 N).reverse.head hrne = (Nat.digits 58 N).getLast hdne :=
      List.head_reverse hrne
    rw [hhead]
    have hlast := Nat.getLast_digit_ne_zero 58 hNne
    have hmem : (Nat.digits 58 N).getLast hdne ∈ Nat.digits 58 N := List.getLast_mem hdne
    exact alphaChar_ne_one _ (Nat.digits_lt_base (by omega) hmem) hlast
  have hones : leadingOneCount (base58EncodeL b) = z := by
    rw [hEnc, leadingOneCount, takeWhile_replicate_append '1' z T hThead]
  have hdrop : (base58EncodeL b).drop z = T := by
    rw [hEnc, List.drop_left' (by simp : (List.replicate z '1').length = z)]
  rw [base58DecodeL_valid _ hvalid, hones, hdrop]
  have hmap : T.map charIndex = (Nat.digits 58 N).reverse := by
    show (List.map alphaChar (Nat.digits 58 N).reverse).map charIndex = _
    rw [List.map_map]
    have hcong : ∀ d ∈ (Nat.digits 58 N).reverse, (charIndex ∘ alphaChar) d = id d :=
      fun d hd => charIndex_alphaChar d (Nat.digits_lt_base (by omega) (List.mem_reverse.mp hd))
    rw [List.map_congr_left hcong, List.map_id]
  have hM : beVal 58 (T.map charIndex) = N := by rw [hmap, beVal_reverse_digits]
  rw [hM]
  have hbytes : (Nat.digits 256 N).reverse = rest := by
    apply digits_beVal_reverse 256 (by omega) rest
      (fun x hx => hb x (List.mem_of_mem_drop hx))
    intro h
    exact drop_head_ne_zero b h
  rw [hbytes]
  exact congrArg Except.ok (input_decomp b).symm

/-- Round trip at the character-list level in the other direction:
encoding a decoded alphabet-only string gives back exactly the string. -/
theorem encodeL_decodeL (s : List Char) (hv : ∀ c ∈ s, c ∈ b58Alphabet) :
    ∃ bs, base58DecodeL s = .ok bs ∧ base58EncodeL bs = s := by
  refine ⟨_, base58DecodeL_valid s hv, ?_⟩
  have hUhead : ∀ h : (Nat.digits 256
      (beVal 58 ((s.drop (leadingOneCount s)).map charIndex))).reverse ≠ [],
      (Nat.digits 256
        (beVal 58 ((s.drop (leadingOneCount s)).map charIndex))).reverse.head h ≠ 0 := by
    intro h
    have hdne : Nat.digits 256 (beVal 58 ((s.drop (leadingOneCount s)).map charIndex)) ≠ [] :=
      by simpa using h
    have hMne : beVal 58 ((s.drop (leadingOneCount s)).map charIndex) ≠ 0 := by
      intro e
      rw [e] at hdne
      simp at hdne
    rw [List.head_reverse]
    exact Nat.getLast_digit_ne_zero 256 hMne
  have hzeros : leadingZeroCount (List.replicate (leadingOneCount s) 0
      ++ (Nat.digits 256 (beVal 58 ((s.drop (leadingOneCount s)).map charIndex))).reverse)
      = leadingOneCount s := by
    rw [leadingZeroCount]
    exact takeWhile_replicate_append 0 (leadingOneCount s) _ hUhead
  have hdropD : (List.replicate (leadingOneCount s) 0
      ++ (Nat.digits 256 (beVal 58 ((s.drop (leadingOneCount s)).map charIndex))).reverse).drop
        (leadingOneCount s)
      = (Nat.digits 256 (beVal 58 ((s.drop (leadingOneCount s)).map charIndex))).reverse :=
    List.drop_left' (by simp)
  rw [base58EncodeL_eq, hzeros, hdropD, beVal_reverse_digits]
  have hVlt : ∀ x ∈ (s.drop (leadingOneCount s)).map charIndex, x < 58 := by
    intro x hx
    obtain ⟨c, hc, rfl⟩ := List.mem_map.mp hx
    exact charIndex_lt c (hv c (List.mem_of_mem_drop hc))
  have hVhead : ∀ h : (s.drop (leadingOneCount s)).map charIndex ≠ [],
      ((s.drop (leadingOneCount s)).map charIndex).head h ≠ 0 := by
    intro h
    have hrne : s.drop (leadingOneCount s) ≠ [] := by simpa using h
    rw [List.head_map]
    have hheadmem : (s.drop (leadingOneCount s)).head hrne ∈ s.drop (leadingOneCount s) :=
      List.head_mem hrne
    exact charIndex_ne_zero _ (hv _ (List.mem_of_mem_drop hheadmem))
      (drop_head_ne_one s hrne)
  rw [digits_beVal_reverse 58 (by omega) _ hVlt hVhead]
  have hmapV : ((s.drop (leadingOneCount s)).map charIndex).map alphaChar
      = s.drop (leadingOneCount s) := by
    rw [List.map_map]
    have hcong : ∀ c ∈ s.drop (leadingOneCount s), (alphaChar ∘ charIndex) c = id c :=
      fun c hc => alphaChar_charIndex c (hv c (List.mem_of_mem_drop hc))
    rw [List.map_congr_left hcong, List.map_id]
  rw [hmapV]
  exact (string_decomp s).symm

/-- The decoder succeeds exactly on alphabet-only strings. -/
theorem base58DecodeL_isOk_iff (s : List Char) :
    (∃ r, base58DecodeL s = .ok r) ↔ ∀ c ∈ s, c ∈ b58Alphabet := by
  constructor
  · rintro ⟨r, hr⟩ c hc
    by_cases hs : s = []
    · subst hs
      cases hc
    · simp only [base58DecodeL, if_neg hs] at hr
      cases hloop : decodeLoop (s.drop (leadingOneCount s)) [] with
      | error e =>
        rw [hloop] at hr
        cases hr
      | ok res =>
        have hvalid := decodeLoop_ok_valid _ _ _ hloop
        rw [string_decomp s] at hc
        rcases List.mem_append.mp hc with h | h
        · rw [List.eq_of_mem_replicate h]
          exact one_mem_alphabet
        · exact hvalid c h
  · intro hv
    exact ⟨_, base58DecodeL_valid s hv⟩

/-- When the decoder fails, the reported character is an input character
outside the alphabet. -/
theorem base58DecodeL_error_spec (s : List Char) (e : Char)
    (h : base58DecodeL s = .error e) : e ∈ s ∧ e ∉ b58Alphabet := by
  by_cases hs : s = []
  · subst hs
    cases h
  · simp only [base58DecodeL, if_neg hs] at h
    cases hloop : decodeLoop (s.drop (leadingOneCount s)) [] with
    | ok res =>
      rw [hloop] at h
      cases h
    | error e' =>
      rw [hloop] at h
      have he : e' = e := by
        cases h
        rfl
      subst he
      obtain ⟨hm, hn⟩ := decodeLoop_error _ _ _ hloop
      exact ⟨List.mem_of_mem_drop hm, hn⟩

/-- Prepending the alphabet's zero digit `'1'` prepends a zero byte to the
decode result (and preserves errors). -/
theorem base58DecodeL_cons_one (s : List Char) :
    base58DecodeL ('1' :: s) = (base58DecodeL s).map (fun bs => 0 :: bs) := by
  by_cases hs : s = []
  · subst hs
    rfl
  · have hcount : leadingOneCount ('1' :: s) = leadingOneCount s + 1 := by
      simp [leadingOneCount, List.takeWhile_cons]
    have hne : ('1' :: s : List Char) ≠ [] := by simp
    simp only [base58DecodeL, if_neg hs, if_neg hne, hcount, List.drop_succ_cons]
    cases hloop : decodeLoop (s.drop (leadingOneCount s)) [] with
    | error e => simp [Except.map]
    | ok res =>
      simp only [Except.map, List.reverse_append, List.reverse_replicate]
      rw [List.replicate_succ, List.cons_append]

/-- The number of leading `'1'`s the encoder emits is exactly the number
of leading zero bytes of its input (the first non-prefix character, when
present, is a nonzero digit). -/
theorem leadingOnes_encode (b : List Nat) :
    leadingOneCount (base58EncodeL b) = leadingZeroCount b := by
  rw [base58EncodeL_eq, leadingOneCount]
  apply takeWhile_replicate_append
  intro h
  have hrne : (Nat.digits 58 (beVal 256 (b.drop (leadingZeroCount b)))).reverse ≠ [] := by
    simpa using h
  have hdne : Nat.digits 58 (beVal 256 (b.drop (leadingZeroCount b))) ≠ [] := by
    simpa using hrne
  have hNne : beVal 256 (b.drop (leadingZeroCount b)) ≠ 0 := by
    intro e
    rw [e] at hdne
    simp at hdne
  rw [List.head_map, List.head_reverse]
  exact alphaChar_ne_one _
    (Nat.digits_lt_base (by omega) (List.getLast_mem hdne))
    (Nat.getLast_digit_ne_zero 58 hNne)

/-- The number of leading zero bytes the decoder emits is exactly the
number of leading `'1'`s of its (alphabet-only) input. -/
theorem leadingZeros_decode (s : List Char) (hv : ∀ c ∈ s, c ∈ b58Alphabet)
    (bs : List Nat) (h : base58DecodeL s = .ok bs) :
    leadingZeroCount bs = leadingOneCount s := by
  rw [base58DecodeL_valid s hv] at h
  have hbs : bs = List.replicate (leadingOneCount s) 0
      ++ (Nat.digits 256 (beVal 58 ((s.drop (leadingOneCount s)).map charIndex))).reverse := by
    cases h
    rfl
  subst hbs
  rw [leadingZeroCount]
  apply takeWhile_replicate_append
  intro h
  have hdne : Nat.digits 256 (beVal 58 ((s.drop (leadingOneCount s)).map charIndex)) ≠ [] := by
    simpa using h
  have hMne : beVal 58 ((s.drop (leadingOneCount s)).map charIndex) ≠ 0 := by
    intro e
    rw [e] at hdne
    simp at hdne
  rw [List.head_reverse]
  exact Nat.getLast_digit_ne_zero 256 hMne

-- Correctness of the helper encoder's long-division pass and outer loop.

theorem divmod58_length (l : List Nat) : ∀ rem, (divmod58 l rem).1.length = l.length := by
  induction l with
  | nil => intro rem; rfl
  | cons d ds ih => intro rem; simp [divmod58, ih]

theorem mul_div_identity (P V q r R D : Nat) (h : R * 256 + D = 58 * q + r) :
    R * (256 * P) + (D * P + V) = (r * P + V) + 58 * (q * P) := by
  calc R * (256 * P) + (D * P + V) = (R * 256 + D) * P + V := by ring
    _ = (58 * q + r) * P + V := by rw [h]
    _ = (r * P + V) + 58 * (q * P) := by ring

theorem divmod58_spec (l : List Nat) :
    ∀ rem, rem < 58 → (∀ x ∈ l, x < 256) →
      (∀ x ∈ (divmod58 l rem).1, x < 256) ∧
      beVal 256 (divmod58 l rem).1 = (rem * 256 ^ l.length + beVal 256 l) / 58 ∧
      (divmod58 l rem).2 = (rem * 256 ^ l.length + beVal 256 l) % 58 := by
  induction l with
  | nil =>
    intro rem hrem _
    have hb : beVal 256 ([] : List Nat) = 0 := rfl
    refine ⟨by simp [divmod58], ?_, ?_⟩
    · simp [divmod58, hb]
      omega
    · simp [divmod58, hb]
      omega
  | cons d ds ih =>
    intro rem hrem hl
    have hd : d < 256 := hl d (by simp)
    have htail : ∀ x ∈ ds, x < 256 := fun x hx => hl x (by simp [hx])
    have htemp : rem * 256 + d < 58 * 256 := by omega
    have hq : (rem * 256 + d) / 58 < 256 := Nat.div_lt_of_lt_mul (by omega)
    have hrem2 : (rem * 256 + d) % 58 < 58 := Nat.mod_lt _ (by omega)
    obtain ⟨ih1, ih2, ih3⟩ := ih ((rem * 256 + d) % 58) hrem2 htail
    have hhead : ((rem * 256 + d) / 58) % 256 = (rem * 256 + d) / 58 := Nat.mod_eq_of_lt hq
    have hTfull : rem * 256 ^ (d :: ds).length + beVal 256 (d :: ds)
        = ((rem * 256 + d) % 58 * 256 ^ ds.length + beVal 256 ds)
          + 58 * ((rem * 256 + d) / 58 * 256 ^ ds.length) := by
      rw [beVal_cons, List.length_cons, pow_succ, mul_comm (256 ^ ds.length) 256,
        ← Nat.add_assoc]
      have hdm : rem * 256 + d = 58 * ((rem * 256 + d) / 58) + (rem * 256 + d) % 58 := by
        have := Nat.div_add_mod (rem * 256 + d) 58
        omega
      have := mul_div_identity (256 ^ ds.length) (beVal 256 ds)
        ((rem * 256 + d) / 58) ((rem * 256 + d) % 58) rem d hdm
      calc rem * (256 * 256 ^ ds.length) + d * 256 ^ ds.length + beVal 256 ds
          = rem * (256 * 256 ^ ds.length) + (d * 256 ^ ds.length + beVal 256 ds) := by ring
        _ = _ := this
    refine ⟨?_, ?_, ?_⟩
    · intro x hx
      simp only [divmod58] at hx
      rcases List.mem_cons.mp hx with rfl | hx
      · rw [hhead]
        exact hq
      · exact ih1 x hx
    · show beVal 256 ((((rem * 256 + d) / 58) % 256)
          :: (divmod58 ds ((rem * 256 + d) % 58)).1) = _
      rw [beVal_cons, divmod58_length, hhead, ih2, hTfull,
        Nat.add_mul_div_left _ _ (by omega : (0 : Nat) < 58)]
      omega
    · show (divmod58 ds ((rem * 256 + d) % 58)).2 = _
      rw [ih3, hTfull, Nat.add_mul_mod_self_left]

theorem beVal_dropWhile_zero (base : Nat) (l : List Nat) :
    beVal base (l.dropWhile (fun x => x = 0)) = beVal base l := by
  induction l with
  | nil => rfl
  | cons d ds ih =>
    by_cases hd : d = 0
    · subst hd
      simp [List.dropWhile_cons, ih, beVal_cons]
    · simp [List.dropWhile_cons, hd]

/-- The helper's outer loop produces exactly the canonical base-58 digit
characters of the buffer's value, most significant first. -/
theorem helperLoopF_eq (fuel : Nat) : ∀ l, beVal 256 l ≤ fuel → (∀ x ∈ l, x < 256) →
    helperLoopF fuel l = ((Nat.digits 58 (beVal 256 l)).reverse).map alphaChar := by
  induction fuel with
  | zero =>
    intro l hle _
    have h0 : beVal 256 l = 0 := Nat.le_zero.mp hle
    simp [helperLoopF, h0]
  | succ n ih =>
    intro l hle hlt
    by_cases hinp : l.dropWhile (fun x => x = 0) = []
    · have hval : beVal 256 l = 0 := by
        have h := beVal_dropWhile_zero 256 l
        rw [hinp] at h
        exact h.symm
      simp [helperLoopF, hinp, hval]
    · have hinpval : beVal 256 (l.dropWhile (fun x => x = 0)) = beVal 256 l :=
        beVal_dropWhile_zero 256 l
      have hmem : ∀ x ∈ l.dropWhile (fun x => x = 0), x < 256 :=
        fun x hx => hlt x ((List.dropWhile_sublist _).subset hx)
      have hhead : (l.dropWhile (fun x => x = 0)).head hinp ≠ 0 := by
        have := List.head_dropWhile_not (fun x => decide (x = 0)) l hinp
        simpa using this
      have hpos : 0 < beVal 256 l := by
        rw [← hinpval]
        exact beVal_pos 256 (by omega) _ hinp hhead
      obtain ⟨hq1, hq2, hq3⟩ :=
        divmod58_spec (l.dropWhile (fun x => x = 0)) 0 (by omega) hmem
      have hqval : beVal 256 (divmod58 (l.dropWhile (fun x => x = 0)) 0).1
          = beVal 256 l / 58 := by
        rw [hq2]
        simp [hinpval]
      have hrval : (divmod58 (l.dropWhile (fun x => x = 0)) 0).2 = beVal 256 l % 58 := by
        rw [hq3]
        simp [hinpval]
      have hfuel : beVal 256 (divmod58 (l.dropWhile (fun x => x = 0)) 0).1 ≤ n := by
        rw [hqval]
        have := Nat.div_lt_self hpos (by omega : 1 < 58)
        omega
      simp only [helperLoopF, if_neg hinp]
      rw [ih _ hfuel hq1, hqval, hrval, Nat.digits_def' (by omega : 1 < 58) hpos]
      simp

/-- The production encoder and the test helper encoder agree (list level). -/
theorem encodeL_eq_helper (data : List Nat) (hd : ∀ x ∈ data, x < 256) :
    base58EncodeL data = List.replicate (leadingZeroCount data) '1' ++ helperLoop data := by
  rw [base58EncodeL_eq]
  congr 1
  rw [helperLoop, helperLoopF_eq (beVal 256 data) data le_rfl hd]
  congr 2
  rw [leadingZeroCount, drop_length_takeWhile, beVal_dropWhile_zero]

-- The claims.

/-- C1: for every byte sequence `b`, including the empty sequence and
sequences that are all zero bytes or begin with zero bytes,
`base58Decode (base58Encode b)` succeeds and returns exactly `b` (same
length, same bytes, leading zero bytes preserved). -/
theorem claim_C1_decode_encode_roundtrip (b : List Nat) (hb : ∀ x ∈ b, x < 256) :
    base58Decode (base58Encode b) = .ok b :=
  decodeL_encodeL b hb

theorem claim_C1_witness :
    (∀ x ∈ [0, 0, 5, 255], x < 256) ∧
      base58Decode (base58Encode [0, 0, 5, 255]) = .ok [0, 0, 5, 255] :=
  ⟨by decide, claim_C1_decode_encode_roundtrip [0, 0, 5, 255] (by decide)⟩

/-- C2: for every string `s` composed only of alphabet characters
(including the empty string and all-`'1'` strings), `base58Decode s`
succeeds and `base58Encode (base58Decode s)` equals `s` exactly,
including every leading `'1'`. -/
theorem claim_C2_encode_decode_roundtrip (s : String)
    (hv : ∀ c ∈ s.data, c ∈ b58Alphabet) :
    ∃ bs, base58Decode s = .ok bs ∧ base58Encode bs = s := by
  obtain ⟨bs, h1, h2⟩ := encodeL_decodeL s.data hv
  refine ⟨bs, h1, ?_⟩
  show String.mk (base58EncodeL bs) = s
  rw [h2]

theorem claim_C2_witness :
    (∀ c ∈ ("11z").data, c ∈ b58Alphabet) ∧
      ∃ bs, base58Decode "11z" = .ok bs ∧ base58Encode bs = "11z" :=
  ⟨by decide, claim_C2_encode_decode_roundtrip "11z" (by decide)⟩

/-- C3: `base58Decode s` returns an error iff `s` contains a character
outside the alphabet; the error carries the offending character (the
only failure mode); in particular `base58Decode "0OIl"` fails on `'0'`
(none of `'0'`, `'O'`, `'I'`, `'l'` is in the alphabet), and every
alphabet-only string decodes successfully. -/
theorem claim_C3_invalid_character (s : String) :
    ((∃ r, base58Decode s = .ok r) ↔ ∀ c ∈ s.data, c ∈ b58Alphabet) ∧
    (∀ e, base58Decode s = .error e → e ∈ s.data ∧ e ∉ b58Alphabet) ∧
    base58Decode "0OIl" = .error '0' :=
  ⟨base58DecodeL_isOk_iff s.data,
   fun e he => base58DecodeL_error_spec s.data e he,
   rfl⟩

theorem claim_C3_witness : '0' ∈ ("0OIl").data ∧ '0' ∉ b58Alphabet :=
  (claim_C3_invalid_character "0OIl").2.1 '0' rfl

/-- C4: prefix preservation in both directions:
`base58Encode [0,0,5]` is `"11"` followed by `base58Encode [5]`, and for
every alphabet-only suffix `X`, `base58Decode ("11" ++ X)` succeeds and
is two zero bytes followed by `base58Decode X`. -/
theorem claim_C4_prefix_preservation (X : String) (hv : ∀ c ∈ X.data, c ∈ b58Alphabet) :
    base58Encode [0, 0, 5] = "11" ++ base58Encode [5] ∧
    ∃ bs, base58Decode X = .ok bs ∧ base58Decode ("11" ++ X) = .ok (0 :: 0 :: bs) := by
  refine ⟨rfl, ?_⟩
  obtain ⟨bs, h1⟩ := (base58DecodeL_isOk_iff X.data).mpr hv
  refine ⟨bs, h1, ?_⟩
  show base58DecodeL (("11" ++ X).data) = _
  have hdata : ("11" ++ X).data = '1' :: '1' :: X.data := rfl
  rw [hdata, base58DecodeL_cons_one, base58DecodeL_cons_one, h1]
  rfl

theorem claim_C4_witness :
    (∀ c ∈ ("z").data, c ∈ b58Alphabet) ∧
      (base58Encode [0, 0, 5] = "11" ++ base58Encode [5] ∧
        ∃ bs, base58Decode "z" = .ok bs ∧ base58Decode ("11" ++ "z") = .ok (0 :: 0 :: bs)) :=
  ⟨by decide, claim_C4_prefix_preservation "z" (by decide)⟩

/-- C5: the concrete vectors hold exactly: `decode "" = []` (no error),
`encode [] = ""`, `decode "1" = [0]`, `decode "2" = [1]`,
`decode "z" = [57]`, `decode "11" = [0,0]`, `encode [0] = "1"`,
`encode [57] = "z"`. -/
theorem claim_C5_concrete_vectors :
    base58Decode "" = .ok [] ∧ base58Encode [] = "" ∧
    base58Decode "1" = .ok [0] ∧ base58Decode "2" = .ok [1] ∧
    base58Decode "z" = .ok [57] ∧ base58Decode "11" = .ok [0, 0] ∧
    base58Encode [0] = "1" ∧ base58Encode [57] = "z" :=
  ⟨rfl, rfl, rfl, rfl, rfl, rfl, rfl, rfl⟩

/-- C6: the encoder is total — for every input (defined for arbitrary
inputs, in particular every byte sequence) every value stored in the
little-endian digit buffer is in `0–57`, so the final
`alphabet[result[i]]` lookup is always within the 58-character
alphabet's bounds, and every produced character is an alphabet
character. -/
theorem claim_C6_encoder_total (input : List Nat) :
    (∀ d ∈ encodeDigits input, d < b58Alphabet.length) ∧
    (∀ c ∈ (base58Encode input).data, c ∈ b58Alphabet) := by
  constructor
  · intro d hd
    rw [alphabet_length]
    exact foldl_stepDigits_lt 256 58 (by omega) _ [] (by simp) d hd
  · intro c hc
    have hc2 : c ∈ base58EncodeL input := hc
    rw [base58EncodeL_eq] at hc2
    rcases List.mem_append.mp hc2 with h | h
    · rw [List.eq_of_mem_replicate h]
      exact one_mem_alphabet
    · obtain ⟨d, hdm, rfl⟩ := List.mem_map.mp h
      exact alphaChar_mem d (Nat.digits_lt_base (by omega) (List.mem_reverse.mp hdm))

/-- C7: `loadKeypairFromString` on a string decoding to 32 bytes returns
the key derived from those bytes as seed; on 64 bytes it uses only the
first 32 decoded bytes as seed and never validates the remaining 32
bytes (it holds for every derivation function `f`, with no constraint
relating the two halves); every other decoded length is an error. -/
theorem claim_C7_loader_lengths (f : List Nat → List Nat) (s : String) (bs : List Nat)
    (h : base58Decode (goTrimSpace s) = .ok bs) :
    (bs.length = 32 → loadKeypairFromString f s = .ok (f bs)) ∧
    (bs.length = 64 → loadKeypairFromString f s = .ok (f (bs.take 32))) ∧
    (bs.length ≠ 32 → bs.length ≠ 64 →
      loadKeypairFromString f s = .error (KeypairError.invalidLength bs.length)) := by
  refine ⟨fun h32 => ?_, fun h64 => ?_, fun h32 h64 => ?_⟩
  · simp only [loadKeypairFromString, h]
    rw [if_pos h32]
  · simp only [loadKeypairFromString, h]
    rw [if_neg (by omega), if_pos h64]
  · simp only [loadKeypairFromString, h]
    rw [if_neg h32, if_neg h64]

theorem claim_C7_witness :
    base58Decode (goTrimSpace "11111111111111111111111111111111")
        = .ok (List.replicate 32 0) ∧
      loadKeypairFromString id "11111111111111111111111111111111"
        = .ok (id (List.replicate 32 0)) := by
  have h : base58Decode (goTrimSpace "11111111111111111111111111111111")
      = .ok (List.replicate 32 0) := rfl
  exact ⟨h, (claim_C7_loader_lengths id _ _ h).1 (by decide)⟩

/-- C8: the output stage supports exactly three signature encodings
selected by the format flag — `"base58"` (rendered with `base58Encode`),
`"base64"`, and `"hex"` — and errors on every other format value,
whatever the external base64/hex renderers are. -/
theorem claim_C8_output_formats (b64Enc hexEnc : List Nat → String) (sig : List Nat)
    (fmt : String) :
    formatSignature b64Enc hexEnc "base58" sig = .ok (base58Encode sig) ∧
    formatSignature b64Enc hexEnc "base64" sig = .ok (b64Enc sig) ∧
    formatSignature b64Enc hexEnc "hex" sig = .ok (hexEnc sig) ∧
    (fmt ≠ "base58" → fmt ≠ "base64" → fmt ≠ "hex" →
      formatSignature b64Enc hexEnc fmt sig
        = .error ("Unknown format: " ++ fmt ++ ". Supported formats: base58, base64, hex")) := by
  refine ⟨rfl, rfl, rfl, fun h58 h64 hhex => ?_⟩
  rw [formatSignature, if_neg h64, if_neg hhex, if_neg h58]

theorem claim_C8_witness :
    ("solana" : String) ≠ "base58" ∧ ("solana" : String) ≠ "base64" ∧
      ("solana" : String) ≠ "hex" ∧
      formatSignature (fun _ => "") (fun _ => "") "solana" []
        = .error ("Unknown format: " ++ "solana" ++ ". Supported formats: base58, base64, hex") :=
  ⟨by decide, by decide, by decide,
    (claim_C8_output_formats (fun _ => "") (fun _ => "") [] "solana").2.2.2
      (by decide) (by decide) (by decide)⟩

/-- C9: canonical prefix invariant: the number of leading `'1'`s of
`base58Encode b` equals the number of leading zero bytes of `b`; dually,
for every alphabet-only string `s`, the decode result's leading zero
bytes are exactly the leading `'1'`s of `s`. -/
theorem claim_C9_prefix_counts :
    (∀ b : List Nat, leadingOneCount (base58Encode b).data = leadingZeroCount b) ∧
    (∀ s : String, (∀ c ∈ s.data, c ∈ b58Alphabet) →
      ∃ bs, base58Decode s = .ok bs ∧ leadingZeroCount bs = leadingOneCount s.data) := by
  constructor
  · intro b
    exact leadingOnes_encode b
  · intro s hv
    obtain ⟨bs, h⟩ := (base58DecodeL_isOk_iff s.data).mpr hv
    exact ⟨bs, h, leadingZeros_decode s.data hv bs h⟩

theorem claim_C9_witness :
    (∀ c ∈ ("112z").data, c ∈ b58Alphabet) ∧
      ∃ bs, base58Decode "112z" = .ok bs ∧
        leadingZeroCount bs = leadingOneCount ("112z").data :=
  ⟨by decide, claim_C9_prefix_counts.2 "112z" (by decide)⟩

/-- C10: the production encoder (multiply-by-256 with carry propagation
in base 58) and the test-helper encoder (repeated division by 58,
prepending remainder characters) return the same string for every byte
sequence. -/
theorem claim_C10_encoders_agree (data : List Nat) (hd : ∀ x ∈ data, x < 256) :
    base58Encode data = base58EncodeHelper data := by
  by_cases hne : data = []
  · subst hne
    rfl
  · show String.mk (base58EncodeL data) = _
    rw [base58EncodeHelper, if_neg hne]
    exact congrArg String.mk (encodeL_eq_helper data hd)

theorem claim_C10_witness :
    (∀ x ∈ [0, 1, 2, 255], x < 256) ∧
      base58Encode [0, 1, 2, 255] = base58EncodeHelper [0, 1, 2, 255] :=
  ⟨by decide, claim_C10_encoders_agree [0, 1, 2, 255] (by decide)⟩

end SolSign

namespace SolSign

-- Sanity vectors (claim C5 is stated formally below).
example : base58Decode "" = .ok [] := rfl
example : base58Decode "1" = .ok [0] := rfl
example : base58Decode "2" = .ok [1] := rfl
example : base58Decode "z" = .ok [57] := rfl
example : base58Decode "11" = .ok [0, 0] := rfl
example : base58Encode [0] = "1" := rfl
example : base58Encode [57] = "z" := rfl
example : base58Encode [] = "" := rfl
example : base58Encode [0, 0, 5] = "116" := rfl
example : base58Decode "0OIl" = .error '0' := rfl

end SolSign
